import Mathlib

/-!
Verification of the sparse matrix-matrix multiply engine of this GraphBLAS
snapshot, as a shallow embedding in Lean 4.

Each section embeds one source file (or the part of it a claim needs) as
executable Lean definitions, then proves the stated properties.  Where a
definition embeds code whose body lives in a template file that is not part
of the snapshot (the dot-product meta templates, `GB_cumsum`,
`GB_reduce_to_scalar_template.c`), the definition is modelled from the
specification text and its doc comment says so.
-/

set_option maxHeartbeats 1000000

/-! ## GB_memcpy.c : parallel chunked memcpy -/

/-- Chunk size used by `GB_memcpy` (`#define GB_CHUNK (1024*1024)`). -/
def GB_CHUNK : Nat := 1024 * 1024

/-- Sequential libc `memcpy` on byte-addressed memory, with the destination
and source given as byte maps (non-overlap is implicit in the model): the
result agrees with `src` on `[0, n)` and with `dest` elsewhere. -/
def memcpySeq (dest src : Nat → Nat) (n : Nat) : Nat → Nat :=
  fun i => if i < n then src i else dest i

/-- One chunked copy of `len` bytes starting at byte `start`
(`memcpy (dest + start, src + start, chunk)` in the source). -/
def copyRange (dest src : Nat → Nat) (start len : Nat) : Nat → Nat :=
  fun i => if start ≤ i ∧ i < start + len then src i else dest i

/-- `GB_memcpy` from `Source/GB_memcpy.c`: a single `memcpy` when
`nthreads <= 1 || n <= GB_CHUNK`, otherwise a loop over
`nchunks = 1 + n / GB_CHUNK` chunks, chunk `k` copying
`GB_IMIN (n - start, GB_CHUNK)` bytes at `start = k * GB_CHUNK` when
`start < n`.  The parallel chunks write disjoint ranges, so the fold models
the concurrent loop faithfully. -/
def GB_memcpy (dest src : Nat → Nat) (n : Nat) (nthreads : Nat) : Nat → Nat :=
  if nthreads ≤ 1 ∨ n ≤ GB_CHUNK then
    memcpySeq dest src n
  else
    (List.range (1 + n / GB_CHUNK)).foldl
      (fun d k =>
        if k * GB_CHUNK < n then
          copyRange d src (k * GB_CHUNK) (min (n - k * GB_CHUNK) GB_CHUNK)
        else d)
      dest

/-- Does chunk `k` of `GB_memcpy` write byte `i`?  Mirrors the loop body's
guard and range in `Source/GB_memcpy.c` lines 35-42. -/
def chunkWrites (n k i : Nat) : Bool :=
  decide (k * GB_CHUNK < n ∧ k * GB_CHUNK ≤ i ∧
          i < k * GB_CHUNK + min (n - k * GB_CHUNK) GB_CHUNK)

/-- Number of times `GB_memcpy dest src n nthreads` writes destination
byte `i`. -/
def GB_memcpy_writeCount (n nthreads i : Nat) : Nat :=
  if nthreads ≤ 1 ∨ n ≤ GB_CHUNK then
    (if i < n then 1 else 0)
  else
    (List.range (1 + n / GB_CHUNK)).countP (fun k => chunkWrites n k i)

theorem gbmemcpy_fold_eq (src dest : Nat → Nat) (n : Nat) :
    ∀ m : Nat,
      (List.range m).foldl
        (fun d k =>
          if k * GB_CHUNK < n then
            copyRange d src (k * GB_CHUNK) (min (n - k * GB_CHUNK) GB_CHUNK)
          else d)
        dest
      = fun i => if i < min n (m * GB_CHUNK) then src i else dest i := by
  intro m
  induction m with
  | zero => funext i; simp
  | succ m ih =>
    rw [List.range_succ, List.foldl_append, List.foldl_cons, List.foldl_nil, ih]
    by_cases hlt : m * GB_CHUNK < n
    · simp only [if_pos hlt]
      funext i
      simp only [copyRange]
      have hC : 0 < GB_CHUNK := by norm_num [GB_CHUNK]
      have : (m + 1) * GB_CHUNK = m * GB_CHUNK + GB_CHUNK := by ring
      by_cases h1 : m * GB_CHUNK ≤ i ∧ i < m * GB_CHUNK + min (n - m * GB_CHUNK) GB_CHUNK
      · rw [if_pos h1, if_pos (by omega)]
      · rw [if_neg h1]
        by_cases h2 : i < min n (m * GB_CHUNK)
        · rw [if_pos h2, if_pos (by omega)]
        · rw [if_neg h2, if_neg (by omega)]
    · simp only [if_neg hlt]
      funext i
      have : (m + 1) * GB_CHUNK = m * GB_CHUNK + GB_CHUNK := by ring
      by_cases h2 : i < min n (m * GB_CHUNK)
      · rw [if_pos h2, if_pos (by omega)]
      · rw [if_neg h2, if_neg (by omega)]

theorem gbmemcpy_count_eq (n i : Nat) :
    ∀ m : Nat,
      (List.range m).countP (fun k => chunkWrites n k i)
      = if i < min n (m * GB_CHUNK) then 1 else 0 := by
  intro m
  induction m with
  | zero => simp
  | succ m ih =>
    rw [List.range_succ, List.countP_append, ih]
    have hC : 0 < GB_CHUNK := by norm_num [GB_CHUNK]
    have hm : (m + 1) * GB_CHUNK = m * GB_CHUNK + GB_CHUNK := by ring
    simp only [List.countP_cons, List.countP_nil, Nat.zero_add, chunkWrites,
      decide_eq_true_eq]
    by_cases h1 : m * GB_CHUNK < n ∧ m * GB_CHUNK ≤ i ∧
        i < m * GB_CHUNK + min (n - m * GB_CHUNK) GB_CHUNK
    · rw [if_pos h1]
      have h2 : ¬ i < min n (m * GB_CHUNK) := by omega
      rw [if_neg h2, if_pos (by omega)]
    · rw [if_neg h1]
      by_cases h2 : i < min n (m * GB_CHUNK)
      · rw [if_pos h2, if_pos (by omega)]
      · rw [if_neg h2, if_neg (by omega)]

/-- C9: for every byte count `n`, every thread count, and non-overlapping
buffers (source and destination given as independent byte maps),
`GB_memcpy dest src n nthreads` is extensionally equal to the sequential
`memcpy (dest, src, n)`, and it writes each destination byte in `[0, n)`
exactly once and every other byte not at all, regardless of `nthreads`. -/
theorem GB_memcpy_eq_memcpySeq (dest src : Nat → Nat) (n nthreads : Nat) :
    GB_memcpy dest src n nthreads = memcpySeq dest src n ∧
    ∀ i, GB_memcpy_writeCount n nthreads i = (if i < n then 1 else 0) := by
  constructor
  · unfold GB_memcpy
    by_cases h : nthreads ≤ 1 ∨ n ≤ GB_CHUNK
    · rw [if_pos h]
    · rw [if_neg h, gbmemcpy_fold_eq]
      push_neg at h
      have hC : 0 < GB_CHUNK := by norm_num [GB_CHUNK]
      have hbig : n ≤ (1 + n / GB_CHUNK) * GB_CHUNK := by
        unfold GB_CHUNK
        omega
      funext i
      simp only [memcpySeq]
      by_cases h2 : i < n
      · rw [if_pos (by omega), if_pos h2]
      · rw [if_neg (by omega), if_neg h2]
  · intro i
    unfold GB_memcpy_writeCount
    by_cases h : nthreads ≤ 1 ∨ n ≤ GB_CHUNK
    · rw [if_pos h]
    · rw [if_neg h, gbmemcpy_count_eq]
      push_neg at h
      have hC : 0 < GB_CHUNK := by norm_num [GB_CHUNK]
      have hbig : n ≤ (1 + n / GB_CHUNK) * GB_CHUNK := by
        unfold GB_CHUNK
        omega
      by_cases h2 : i < n
      · rw [if_pos (by omega), if_pos h2]
      · rw [if_neg (by omega), if_neg h2]

/-! ## Terminal early exit (GB_DOT_TERMINAL / GB_REDUCE_TERMINAL) -/

/-- Modelled from the spec: the accumulation loop shared by the dot-product
templates (driven by `GB_DOT_TERMINAL`, `Source/GB_AxB_dot2.c` lines
353-358) and by the reduce-to-scalar template
(`GB_reduce_to_scalar_template.c`, not in the snapshot, driven by
`GB_REDUCE_TERMINAL` of `Source/Generated/GB_red__max_int8.c`): each step
folds the next operand into the accumulator with the monoid operator and
breaks as soon as the accumulator equals the monoid's terminal value. -/
def foldTerminal [DecidableEq α] (add : α → α → α) (t : α) : α → List α → α
  | s, [] => s
  | s, x :: xs => if add s x = t then add s x else foldTerminal add t (add s x) xs

/-- `GB_IMAX` macro on the (signed) values of `GB_red__max_int8.c`. -/
def GB_IMAX (x y : Int) : Int := max x y

/-- `GB_red_scalar__max_int8` from `Source/Generated/GB_red__max_int8.c`
applied to the stored values `Ax` of the matrix: `s = INT8_MIN`, then the
reduce template folds every entry with `GB_REDUCE` (`s = GB_IMAX (s, Ax
[p])`) and breaks once `s == INT8_MAX` (`GB_REDUCE_TERMINAL`). -/
def GB_red_scalar__max_int8 (Ax : List Int) : Int :=
  foldTerminal GB_IMAX 127 (-128) Ax

theorem foldl_absorb [DecidableEq α] (add : α → α → α) (t : α) (xs : List α)
    (h : ∀ x ∈ xs, add t x = t) : xs.foldl add t = t := by
  induction xs with
  | nil => rfl
  | cons x xs ih =>
    rw [List.foldl_cons, h x (by simp)]
    exact ih (fun y hy => h y (by simp [hy]))

theorem foldTerminal_eq_foldl [DecidableEq α] (add : α → α → α) (t : α)
    (xs : List α) (h : ∀ x ∈ xs, add t x = t) :
    ∀ s, foldTerminal add t s xs = xs.foldl add s := by
  induction xs with
  | nil => intro s; rfl
  | cons x xs ih =>
    intro s
    rw [foldTerminal, List.foldl_cons]
    by_cases hx : add s x = t
    · rw [if_pos hx, hx, foldl_absorb add t xs (fun y hy => h y (by simp [hy]))]
    · rw [if_neg hx]
      exact ih (fun y hy => h y (by simp [hy])) (add s x)

/-- C4: for a monoid whose declared terminal value is absorbing under its
operator (on the scanned values), the accumulation loop with terminal early
exit returns the same value as the identical loop run to completion; in
particular `GB_red_scalar__max_int8` equals the full scan whenever the
entries fit in `int8_t` range. -/
theorem terminal_early_exit_eq :
    (∀ {α : Type} [DecidableEq α] (add : α → α → α) (t s : α) (xs : List α),
        (∀ x ∈ xs, add t x = t) → foldTerminal add t s xs = xs.foldl add s)
    ∧ ∀ Ax : List Int, (∀ x ∈ Ax, x ≤ 127) →
        GB_red_scalar__max_int8 Ax = Ax.foldl GB_IMAX (-128) := by
  constructor
  · intro α _ add t s xs h
    exact foldTerminal_eq_foldl add t xs h s
  · intro Ax h
    exact foldTerminal_eq_foldl GB_IMAX 127 Ax
      (fun x hx => by simp only [GB_IMAX, max_eq_left (h x hx)]) (-128)

/-- C4 witness: the early-exit and full scans agree on a concrete boolean
OR monoid scan and a concrete int8 MAX reduction. -/
theorem terminal_early_exit_eq_wit :
    foldTerminal Bool.or true false [true, false, true]
        = [true, false, true].foldl Bool.or false
    ∧ GB_red_scalar__max_int8 [5, 127, 3] = [5, 127, 3].foldl GB_IMAX (-128) :=
  ⟨terminal_early_exit_eq.1 Bool.or true false [true, false, true] (by decide),
   terminal_early_exit_eq.2 [5, 127, 3] (by decide)⟩

/-! ## gbhash mexFunction (src/unnamed/part_000) -/

/-- Arguments of a MATLAB mex entry point. -/
structure MexCall (α β : Type) where
  nargout : Int
  pargout : List α
  nargin : Int
  pargin : List β

/-- Observable outcome of a mex call: the (possibly updated) output cell
array and whether a mex error was raised. -/
structure MexResult (α : Type) where
  pargout : List α
  raisedError : Bool
deriving DecidableEq, Repr

/-- Preprocessor condition around the whole body of gbhash's
`mexFunction`: lines 28-119 of `src/unnamed/part_000` sit between
`#if 0` and `#endif`, so none of that code is compiled. -/
def gbhash_body_compiled : Bool := false

/-- `mexFunction` of the gbhash (`GrB.hash`) entry point as compiled: the
body is excluded by `#if 0`, so the function returns immediately without
reading its arguments, raising an error, or writing `pargout`. -/
def gbhash_mexFunction (call : MexCall α β) : MexResult α :=
  { pargout := call.pargout, raisedError := false }

/-- C10: for every input, the gbhash `mexFunction` performs no computation:
its body is compiled out (`#if 0`), it raises no error and leaves `pargout`
exactly as given, independent of every argument. -/
theorem gbhash_mexFunction_noop {α β : Type} (call : MexCall α β) :
    gbhash_body_compiled = false
    ∧ gbhash_mexFunction call = { pargout := call.pargout, raisedError := false }
    ∧ ∀ call2 : MexCall α β, call2.pargout = call.pargout →
        gbhash_mexFunction call2 = gbhash_mexFunction call := by
  refine ⟨rfl, rfl, ?_⟩
  intro call2 h
  simp [gbhash_mexFunction, h]

/-- C10 witness: a concrete call with two inputs and one (untouched) output
slot. -/
theorem gbhash_mexFunction_noop_wit :
    gbhash_mexFunction (MexCall.mk 1 [(0 : Nat)] 2 [true, false])
      = MexResult.mk [(0 : Nat)] false :=
  (gbhash_mexFunction_noop (MexCall.mk 1 [(0 : Nat)] 2 [true, false])).2.1

/-! ## Demo/Source/mis.c : the convergence loop and its stall check -/

/-- Outcome of the `while (nvals > 0)` loop of `mis`: normal convergence
(guard false or the early `break` at line 155), the fatal
`printf ("stall!") ; exit (1)` at line 166, or fuel exhaustion of the
model (the oracle ran out while the loop would continue). -/
inductive MisOutcome
  | converged
  | stalled
  | fuelOut
deriving DecidableEq, Repr

/-- The candidate-count trace of the `mis` convergence loop
(`Demo/Source/mis.c` lines 124-168).  The GraphBLAS vector operations the
loop calls are outside the multiply engine, so each iteration is summed up
by an oracle pair `(n1, n2)`: the candidate count read at line 154 (after
new members are removed) and at line 163 (after their neighbors are also
removed).  `nvals` is the loop-guard count and `last` the `last_nvals`
variable; the loop body breaks when `n1 = 0` (line 155), executes
`exit (1)` when `n2 == last_nvals` (line 166), and otherwise continues
with `last_nvals = nvals = n2` (line 167).  The returned list is the
end-of-iteration candidate count of every executed iteration. -/
def misLoop (nvals last : Nat) : List (Nat × Nat) → MisOutcome × List Nat
  | [] => if nvals = 0 then (.converged, []) else (.fuelOut, [])
  | (n1, n2) :: rest =>
    if nvals = 0 then (.converged, [])
    else if n1 = 0 then (.converged, [n1])
    else if n2 = last then (.stalled, [n2])
    else
      let r := misLoop n2 n2 rest
      (r.1, n2 :: r.2)

/-- C8: in the `mis` convergence loop a stall (an iteration whose ending
candidate count equals the previous count) is always fatal — the run ends
at once with outcome `stalled`, consuming none of the remaining oracle —
and is never silently retried: any run that does not end in `stalled` has
pairwise-distinct consecutive candidate counts. -/
theorem mis_stall_fatal :
    (∀ (last n1 n2 : Nat) (oracle : List (Nat × Nat)),
        last ≠ 0 → n1 ≠ 0 → n2 = last →
        misLoop last last ((n1, n2) :: oracle) = (.stalled, [n2]))
    ∧ (∀ (nvals : Nat) (oracle : List (Nat × Nat)) (out : MisOutcome)
          (tr : List Nat),
        misLoop nvals nvals oracle = (out, tr) → out ≠ .stalled →
        List.Chain' (fun a b => a ≠ b) (nvals :: tr)) := by
  constructor
  · intro last n1 n2 oracle hlast hn1 hn2
    simp only [misLoop, if_neg hlast, if_neg hn1, if_pos hn2]
  · intro nvals oracle
    induction oracle generalizing nvals with
    | nil =>
      intro out tr h hns
      rw [misLoop] at h
      by_cases h0 : nvals = 0
      · rw [if_pos h0] at h
        injection h with h1 h2
        rw [← h2]; simp
      · rw [if_neg h0] at h
        injection h with h1 h2
        rw [← h2]; simp
    | cons p rest ih =>
      obtain ⟨n1, n2⟩ := p
      intro out tr h hns
      rw [misLoop] at h
      by_cases h0 : nvals = 0
      · rw [if_pos h0] at h
        injection h with h1 h2
        rw [← h2]; simp
      · rw [if_neg h0] at h
        by_cases h1 : n1 = 0
        · rw [if_pos h1] at h
          injection h with ha hb
          rw [← hb, h1]
          simp [h0]
        · rw [if_neg h1] at h
          by_cases h2 : n2 = nvals
          · rw [if_pos h2] at h
            injection h with ha hb
            exact absurd ha.symm hns
          · rw [if_neg h2] at h
            injection h with ha hb
            have := ih n2 (misLoop n2 n2 rest).1 (misLoop n2 n2 rest).2 rfl
              (ha ▸ hns)
            rw [← hb]
            exact List.Chain'.cons (fun hq => h2 hq.symm) this

/-- C8 witness: a stalling iteration (counts 2 then 2) is fatal at once,
and a non-stalling run (3, then 1, then 0) has pairwise-distinct
consecutive counts. -/
theorem mis_stall_fatal_wit :
    misLoop 2 2 [(1, 2)] = (.stalled, [2])
    ∧ List.Chain' (fun a b => a ≠ b) (3 :: [1, 0]) :=
  ⟨mis_stall_fatal.1 2 1 2 [] (by decide) (by decide) rfl,
   mis_stall_fatal.2 3 [(2, 1), (1, 0)] MisOutcome.converged [1, 0]
     (by decide) (by decide)⟩

/-! ## GB_AxB_dot2.c : writes on the input matrices (lines 121-135) -/

/-- The part of a GrB_Matrix that `GB_AxB_dot2` can possibly write on an
input: `content` stands for every other field of the struct (pattern,
values, dimensions, type, hyperlist) and `nvec_nonempty` is the cached
count of non-empty vectors, negative when unknown. -/
structure GBMat (α : Type) where
  content : α
  nvec_nonempty : Int
deriving DecidableEq, Repr

/-- Lines 121-124 of `Source/GB_AxB_dot2.c`: if `B->nvec_nonempty < 0`
the call writes `B->nvec_nonempty = GB_nvec_nonempty (B, NULL)`.
`GB_nvec_nonempty` is outside the snapshot, so its value is supplied as
`f`. -/
def dot2_touch_B (f : α → Int) (B : GBMat α) : GBMat α :=
  if B.nvec_nonempty < 0 then { B with nvec_nonempty := f B.content } else B

/-- Lines 130-135 of `Source/GB_AxB_dot2.c`: each thread writes
`(Aslice [tid])->nvec_nonempty = GB_nvec_nonempty (A, NULL)` when the
slice's cached count is negative (the source computes the count of `A`,
the first slice, not of `Aslice [tid]` itself). -/
def dot2_touch_Aslice (f : α → Int) (A Aslice : GBMat α) : GBMat α :=
  if Aslice.nvec_nonempty < 0 then
    { Aslice with nvec_nonempty := f A.content }
  else Aslice

/-- C6 counterexample: the claim that no field of any input matrix is ever
written fails — a `B` whose `nvec_nonempty` cache is unknown (negative) is
mutated by lines 121-124. -/
theorem dot2_writes_input_cx :
    dot2_touch_B (fun _ => (5 : Int)) (GBMat.mk () (-1)) ≠ GBMat.mk () (-1) := by
  decide

/-- C6 amended: the logical content of the inputs (every field other than
the cached statistic) is unchanged; the only field `GB_AxB_dot2` writes on
an input is the memoized `nvec_nonempty` of `B` and of each `A` slice, and
only when that cache is negative (unknown) — a non-negative cache leaves
the matrix bit-for-bit untouched, and the mask `M` is never written. -/
theorem dot2_inputs_logical_frame (f : α → Int) (A B Aslice : GBMat α) :
    (dot2_touch_B f B).content = B.content
    ∧ (0 ≤ B.nvec_nonempty → dot2_touch_B f B = B)
    ∧ (dot2_touch_Aslice f A Aslice).content = Aslice.content
    ∧ (0 ≤ Aslice.nvec_nonempty → dot2_touch_Aslice f A Aslice = Aslice) := by
  refine ⟨?_, ?_, ?_, ?_⟩
  · unfold dot2_touch_B
    by_cases h : B.nvec_nonempty < 0
    · rw [if_pos h]
    · rw [if_neg h]
  · intro h
    unfold dot2_touch_B
    rw [if_neg (by omega)]
  · unfold dot2_touch_Aslice
    by_cases h : Aslice.nvec_nonempty < 0
    · rw [if_pos h]
    · rw [if_neg h]
  · intro h
    unfold dot2_touch_Aslice
    rw [if_neg (by omega)]

/-- C6 witness: a `B` with a known (non-negative) cache is returned
unchanged, and content is preserved even when the cache is rewritten. -/
theorem dot2_inputs_logical_frame_wit :
    dot2_touch_B (fun _ => (5 : Int)) (GBMat.mk () 3) = GBMat.mk () 3
    ∧ (dot2_touch_B (fun _ => (5 : Int)) (GBMat.mk () (-1))).content = () :=
  ⟨(dot2_inputs_logical_frame (fun _ => (5 : Int)) (GBMat.mk () 0)
      (GBMat.mk () 3) (GBMat.mk () 0)).2.1 (by decide),
   (dot2_inputs_logical_frame (fun _ => (5 : Int)) (GBMat.mk () 0)
      (GBMat.mk () (-1)) (GBMat.mk () 0)).1⟩

/-! ## GB_AxB_dot2.c : exit paths (lines 109-201 and 403-407) -/

/-- Observable exit state of one `GB_AxB_dot2` call: whether the returned
status is `GrB_SUCCESS`, the final value stored in `*Chandle`, and whether
the per-thread `C_counts` scratch was freed (`GB_FREE_ALL`). -/
structure Dot2Exit (γ : Type) where
  success : Bool
  chandle : Option γ
  countsFreed : Bool
deriving DecidableEq, Repr

/-- Exit behavior of `GB_AxB_dot2` as a function of which fallible stage
succeeds.  `phase1_ok` is the conjunction of the per-thread
`GB_AxB_dot2_count` statuses (folded into the boolean `ok`, line 142);
`gbnew_ok` is the status `info` of `GB_NEW` (line 147; its body is outside
the snapshot and is modelled as storing the fresh header in `*Chandle` on
success and leaving it `NULL` on failure); `ixalloc_ok` is the status of
`GB_ix_alloc` (line 195, which does not touch `*Chandle`).  `chandle0` is
the caller's value of `*Chandle` at entry; line 109 overwrites it with
`NULL` unconditionally.  The status returned on the first early-return
path (lines 149-154) is `info`, which there is the status of `GB_NEW`
alone — the per-thread statuses only entered `ok`. -/
def GB_AxB_dot2_exits (phase1_ok gbnew_ok ixalloc_ok : Bool)
    (chandle0 : Option γ) (newC : γ) : Dot2Exit γ :=
  let ch0 : Option γ := none
  let ch1 : Option γ := if gbnew_ok then some newC else ch0
  if ¬ (phase1_ok ∧ gbnew_ok) then
    { success := gbnew_ok, chandle := ch1, countsFreed := true }
  else if ¬ ixalloc_ok then
    { success := false, chandle := ch1, countsFreed := true }
  else
    { success := true, chandle := ch1, countsFreed := true }

/-- C5 counterexample: the claim fails on the code.  With a prior caller
value in `*Chandle`, a run failing in both phase 1 and `GB_NEW` returns
with `*Chandle = NULL`, not untouched; and a run whose only failure is the
per-thread phase-1 counting (`GB_NEW` succeeded) returns status
`GrB_SUCCESS` with `*Chandle` holding the freshly created `C` — a failing
call that reports success and exposes an output matrix. -/
theorem dot2_error_claim_cx :
    (GB_AxB_dot2_exits false false true (some 7) (9 : Nat)).chandle ≠ some 7
    ∧ (GB_AxB_dot2_exits false true true (some 7) (9 : Nat)).success = true
    ∧ (GB_AxB_dot2_exits false true true (some 7) (9 : Nat)).chandle
        = some 9 := by
  decide

/-- C5 amended: on every exit path the per-thread count scratch is freed
by `GB_FREE_ALL`, and `*Chandle` is never left untouched — it is set to
`NULL` at entry.  A `GB_NEW` failure returns its non-success status with
`*Chandle = NULL`; a `GB_ix_alloc` failure returns non-success with
`*Chandle` still holding the created `C`; and a call whose only failure is
the per-thread phase-1 counting returns the status of `GB_NEW`, namely
`GrB_SUCCESS`, with `*Chandle` holding the fresh `C`.  In every case the
final `*Chandle` is `NULL` or the fresh matrix, never the caller's entry
value. -/
theorem dot2_exit_paths (phase1_ok gbnew_ok ixalloc_ok : Bool)
    (chandle0 : Option γ) (newC : γ) :
    (GB_AxB_dot2_exits phase1_ok gbnew_ok ixalloc_ok chandle0 newC).countsFreed
        = true
    ∧ (gbnew_ok = false →
        GB_AxB_dot2_exits phase1_ok gbnew_ok ixalloc_ok chandle0 newC
          = Dot2Exit.mk false none true)
    ∧ (gbnew_ok = true → phase1_ok = false →
        GB_AxB_dot2_exits phase1_ok gbnew_ok ixalloc_ok chandle0 newC
          = Dot2Exit.mk true (some newC) true)
    ∧ (phase1_ok = true → gbnew_ok = true → ixalloc_ok = false →
        GB_AxB_dot2_exits phase1_ok gbnew_ok ixalloc_ok chandle0 newC
          = Dot2Exit.mk false (some newC) true)
    ∧ ((GB_AxB_dot2_exits phase1_ok gbnew_ok ixalloc_ok chandle0 newC).chandle
          = none
        ∨ (GB_AxB_dot2_exits phase1_ok gbnew_ok ixalloc_ok chandle0
            newC).chandle = some newC) := by
  cases phase1_ok <;> cases gbnew_ok <;> cases ixalloc_ok <;>
    simp [GB_AxB_dot2_exits]

/-- C5 witness: the amended exit contract at concrete stage outcomes. -/
theorem dot2_exit_paths_wit :
    GB_AxB_dot2_exits true false true (some 7) (9 : Nat)
        = Dot2Exit.mk false none true
    ∧ GB_AxB_dot2_exits true true false (some 7) (9 : Nat)
        = Dot2Exit.mk false (some 9) true :=
  ⟨(dot2_exit_paths true false true (some 7) 9).2.1 rfl,
   (dot2_exit_paths true true false (some 7) 9).2.2.2.1 rfl rfl rfl⟩

/-! ## Sparse vectors and the dot-product / saxpy kernels

The numeric kernel bodies live in template files that are not part of the
snapshot (`GB_AxB_dot2_meta.c`, `GB_AxB_dot3_template.c`,
`GB_AxB_saxpy3_template.c`); the definitions below model them from the
specification, instantiating the operator macros of
`src/unnamed/part_001` with explicit `mul`/`add` functions. -/

/-- A sparse vector: the list of `(row index, value)` pairs of one stored
vector (`Vi`/`Vx` restricted to one `Vp` range). -/
abbrev SpVec (α : Type) := List (Nat × α)

/-- Row indices of a sparse vector appear in strictly increasing order. -/
abbrev svSorted (u : SpVec α) : Prop := u.Pairwise (fun p q => p.1 < q.1)

theorem lookup_nil_nat (i : Nat) : (([] : SpVec α).lookup i) = none := rfl

theorem lookup_cons_nat (i k : Nat) (a : α) (u : SpVec α) :
    (((k, a) :: u).lookup i) = if i = k then some a else u.lookup i := by
  by_cases h : i = k
  · simp [List.lookup, h]
  · have hb : (i == k) = false := by simp [h]
    simp [List.lookup, hb, h]

theorem lookup_eq_none_of_forall_ne (i : Nat) (u : SpVec α)
    (h : ∀ p ∈ u, i ≠ p.1) : u.lookup i = none := by
  induction u with
  | nil => rfl
  | cons p u ih =>
    obtain ⟨k, a⟩ := p
    rw [lookup_cons_nat, if_neg (h (k, a) (by simp))]
    exact ih (fun q hq => h q (by simp [hq]))

/-- Modelled from the spec: the two-pointer merge of the sparsity patterns
of the two dot-product operands (the `while (pA < pA_end && pB < pB_end)`
loop of the dot templates), returning the value pairs of the pattern
intersection in increasing index order. -/
def interPairs : SpVec α → SpVec β → List (α × β)
  | [], _ => []
  | _ :: _, [] => []
  | (i, a) :: u, (j, b) :: v =>
    if i < j then interPairs u ((j, b) :: v)
    else if j < i then interPairs ((i, a) :: u) v
    else (a, b) :: interPairs u v
termination_by u v => u.length + v.length

theorem interPairs_eq_lookup (u : SpVec α) (v : SpVec β)
    (hu : svSorted u) (hv : svSorted v) :
    interPairs u v
      = v.filterMap (fun kb => (u.lookup kb.1).map (fun x => (x, kb.2))) := by
  induction u, v using interPairs.induct with
  | case1 v =>
    rw [interPairs]
    symm
    apply List.eq_nil_of_length_eq_zero
    rw [List.length_eq_zero]
    exact List.filterMap_eq_nil_iff.mpr (fun kb _ => by rw [lookup_nil_nat]; rfl)
  | case2 p u =>
    rw [interPairs]
    rfl
  | case3 i a u j b v hij ih =>
    rw [interPairs, if_pos hij]
    rw [ih (List.Pairwise.of_cons hu) hv]
    apply List.filterMap_congr
    intro kb hkb
    have hne : kb.1 ≠ i := by
      rcases List.mem_cons.mp hkb with h | h
      · rw [h]; omega
      · have := (List.pairwise_cons.mp hv).1 kb h
        omega
    rw [lookup_cons_nat, if_neg hne]
  | case4 i a u j b v hij hji ih =>
    rw [interPairs, if_neg hij, if_pos hji]
    rw [ih hu (List.Pairwise.of_cons hv)]
    rw [List.filterMap_cons]
    have hnone : (((i, a) :: u).lookup j) = none := by
      apply lookup_eq_none_of_forall_ne
      intro p hp
      rcases List.mem_cons.mp hp with h | h
      · rw [h]; omega
      · have := (List.pairwise_cons.mp hu).1 p h
        omega
    rw [hnone]
    rfl
  | case5 i a u j b v hij hji ih =>
    rw [interPairs, if_neg hij, if_neg hji]
    have hieq : i = j := by omega
    rw [List.filterMap_cons, lookup_cons_nat, if_pos hieq.symm]
    rw [ih (List.Pairwise.of_cons hu) (List.Pairwise.of_cons hv)]
    have : v.filterMap
        (fun kb => ((((i, a) :: u)).lookup kb.1).map (fun x => (x, kb.2)))
        = v.filterMap (fun kb => (u.lookup kb.1).map (fun x => (x, kb.2))) := by
      apply List.filterMap_congr
      intro kb hkb
      have hne : kb.1 ≠ i := by
        have := (List.pairwise_cons.mp hv).1 kb hkb
        omega
      rw [lookup_cons_nat, if_neg hne]
    simp [this]

/-- First-hit-then-accumulate update: `GB_MULT` writes the first product
into `cij`, `GB_MULTADD` folds every later product in with the monoid
operator. -/
def accOpt (add : γ → γ → γ) : Option γ → γ → Option γ
  | none, x => some x
  | some c, x => some (add c x)

theorem foldl_accOpt_some (add : γ → γ → γ) (l : List γ) (c : γ) :
    l.foldl (accOpt add) (some c) = some (l.foldl add c) := by
  induction l generalizing c with
  | nil => rfl
  | cons x l ih => rw [List.foldl_cons, List.foldl_cons]; exact ih (add c x)

theorem foldl_accOpt_none (add : γ → γ → γ) (l : List γ) :
    l.foldl (accOpt add) none
      = match l with
        | [] => none
        | x :: xs => some (xs.foldl add x) := by
  cases l with
  | nil => rfl
  | cons x xs => rw [List.foldl_cons]; exact foldl_accOpt_some add xs x

/-- Modelled from the spec: one dot product `cij = A(:,i)' * B(:,j)` of the
dot templates — merge the two patterns, multiply each coincident pair, and
accumulate with the monoid operator; `none` when the pattern intersection
is empty (no entry is created in `C`). -/
def dotVal (mul : α → β → γ) (add : γ → γ → γ) (u : SpVec α) (v : SpVec β) :
    Option γ :=
  ((interPairs u v).map (fun p => mul p.1 p.2)).foldl (accOpt add) none

/-- Row `i` of the matrix whose columns are `Acols`, starting the column
numbering at `k` — the vector of `A'` that the dot-product method pairs
against each column of `B`. -/
def rowFrom (i : Nat) : Nat → List (SpVec α) → SpVec α
  | _, [] => []
  | k, c :: cs =>
    match c.lookup i with
    | some a => (k, a) :: rowFrom i (k + 1) cs
    | none => rowFrom i (k + 1) cs

/-- Row `i` of the matrix with columns `Acols`, as a sparse vector over
column indices. -/
def rowOf (Acols : List (SpVec α)) (i : Nat) : SpVec α := rowFrom i 0 Acols

theorem rowFrom_key_ge (i k : Nat) (cs : List (SpVec α)) :
    ∀ p ∈ rowFrom i k cs, k ≤ p.1 := by
  induction cs generalizing k with
  | nil => intro p hp; cases hp
  | cons c cs ih =>
    intro p hp
    rw [rowFrom] at hp
    cases hc : c.lookup i with
    | some a =>
      rw [hc] at hp
      rcases List.mem_cons.mp hp with h | h
      · rw [h]
      · have := ih (k + 1) p h; omega
    | none =>
      rw [hc] at hp
      have := ih (k + 1) p hp; omega

theorem rowFrom_sorted (i k : Nat) (cs : List (SpVec α)) :
    svSorted (rowFrom i k cs) := by
  induction cs generalizing k with
  | nil => exact List.Pairwise.nil
  | cons c cs ih =>
    rw [rowFrom]
    cases hc : c.lookup i with
    | some a =>
      exact List.Pairwise.cons
        (fun q hq => by have := rowFrom_key_ge i (k + 1) cs q hq; omega)
        (ih (k + 1))
    | none => exact ih (k + 1)

theorem rowFrom_lookup (i : Nat) (cs : List (SpVec α)) :
    ∀ k j, (rowFrom i k cs).lookup (k + j) = (cs.getD j []).lookup i := by
  induction cs with
  | nil =>
    intro k j
    rw [rowFrom]
    simp [lookup_nil_nat]
  | cons c cs ih =>
    intro k j
    rw [rowFrom]
    cases hc : c.lookup i with
    | some a =>
      cases j with
      | zero =>
        rw [lookup_cons_nat, if_pos (by omega)]
        simpa using hc.symm
      | succ j =>
        rw [lookup_cons_nat, if_neg (by omega)]
        have := ih (k + 1) j
        rw [show k + (j + 1) = k + 1 + j by omega]
        simpa using this
    | none =>
      cases j with
      | zero =>
        have hnone : (rowFrom i (k + 1) cs).lookup k = none := by
          apply lookup_eq_none_of_forall_ne
          intro p hp
          have := rowFrom_key_ge i (k + 1) cs p hp
          omega
        simpa [hnone] using hc.symm
      | succ j =>
        have := ih (k + 1) j
        rw [show k + (j + 1) = k + 1 + j by omega]
        simpa using this

theorem rowOf_lookup (Acols : List (SpVec α)) (i j : Nat) :
    (rowOf Acols i).lookup j = (Acols.getD j []).lookup i := by
  have := rowFrom_lookup i Acols 0 j
  simpa using this

theorem rowOf_sorted (Acols : List (SpVec α)) (i : Nat) :
    svSorted (rowOf Acols i) := rowFrom_sorted i 0 Acols

/-- The products contributing to output row `i` of one output column:
for each entry `(k, bkj)` of the `B` column in order, the product
`A(i,k) * bkj` when `A(i,k)` is stored. -/
def rowProds (mul : α → β → γ) (Acols : List (SpVec α)) (bcol : SpVec β)
    (i : Nat) : List γ :=
  bcol.filterMap (fun kb => ((Acols.getD kb.1 []).lookup i).map
    (fun a => mul a kb.2))

theorem dotVal_row_eq_rowProds (mul : α → β → γ) (add : γ → γ → γ)
    (Acols : List (SpVec α)) (bcol : SpVec β) (i : Nat)
    (hb : svSorted bcol) :
    dotVal mul add (rowOf Acols i) bcol
      = (rowProds mul Acols bcol i).foldl (accOpt add) none := by
  unfold dotVal
  rw [interPairs_eq_lookup (rowOf Acols i) bcol (rowOf_sorted Acols i) hb]
  rw [List.map_filterMap]
  congr 1
  unfold rowProds
  apply List.filterMap_congr
  intro kb _
  rw [rowOf_lookup, Option.map_map]
  rfl

/-- One scatter update of the Gustavson workspace: fold
`A(i,k) * bkj` into slot `i` of the dense accumulator
(`GB_HX_WRITE` / `GB_HX_UPDATE` of `src/unnamed/part_001`). -/
def saxpyUpdate (add : γ → γ → γ) (mul : α → β → γ) (bv : β)
    (w : Nat → Option γ) (ia : Nat × α) : Nat → Option γ :=
  fun r => if r = ia.1 then accOpt add (w ia.1) (mul ia.2 bv) else w r

/-- Modelled from the spec: the saxpy (Gustavson) scatter-accumulate for
one output column — for each entry `B(k,j)` in column order, fold
`A(:,k) * B(k,j)` into the dense workspace; an untouched slot is `none`. -/
def saxpyScatter (mul : α → β → γ) (add : γ → γ → γ)
    (Acols : List (SpVec α)) (bcol : SpVec β) (w : Nat → Option γ) :
    Nat → Option γ :=
  bcol.foldl
    (fun w kb => (Acols.getD kb.1 []).foldl (saxpyUpdate add mul kb.2) w) w

theorem saxpy_inner_skip (add : γ → γ → γ) (mul : α → β → γ) (bv : β)
    (col : SpVec α) (i : Nat) (h : ∀ ia ∈ col, ia.1 ≠ i) :
    ∀ w : Nat → Option γ,
      (col.foldl (saxpyUpdate add mul bv) w) i = w i := by
  induction col with
  | nil => intro w; rfl
  | cons ia col ih =>
    intro w
    rw [List.foldl_cons]
    rw [ih (fun q hq => h q (by simp [hq]))]
    unfold saxpyUpdate
    rw [if_neg (fun hc => h ia (by simp) hc.symm)]

theorem saxpy_inner_eq_lookup (add : γ → γ → γ) (mul : α → β → γ) (bv : β)
    (col : SpVec α) (i : Nat) (hc : svSorted col) :
    ∀ w : Nat → Option γ,
      (col.foldl (saxpyUpdate add mul bv) w) i
        = match col.lookup i with
          | some a => accOpt add (w i) (mul a bv)
          | none => w i := by
  induction col with
  | nil => intro w; rfl
  | cons ia col ih =>
    intro w
    obtain ⟨i', a'⟩ := ia
    rw [List.foldl_cons, lookup_cons_nat]
    by_cases h : i = i'
    · rw [if_pos h]
      have hrest : ∀ q ∈ col, q.1 ≠ i := by
        intro q hq
        have := (List.pairwise_cons.mp hc).1 q hq
        omega
      rw [saxpy_inner_skip add mul bv col i hrest]
      unfold saxpyUpdate
      rw [if_pos h, h]
    · rw [if_neg h]
      rw [ih (List.Pairwise.of_cons hc)]
      have hwi : (saxpyUpdate add mul bv w (i', a')) i = w i := by
        unfold saxpyUpdate
        rw [if_neg h]
      rw [hwi]

theorem svSorted_getD : ∀ (Acols : List (SpVec α)) (k : Nat),
    (∀ c ∈ Acols, svSorted c) → svSorted (Acols.getD k [])
  | [], k, _ => by rw [List.getD_nil]; exact List.Pairwise.nil
  | c :: cs, 0, h => h c (by simp)
  | c :: cs, k + 1, h => by
    rw [List.getD_cons_succ]
    exact svSorted_getD cs k (fun d hd => h d (by simp [hd]))

theorem saxpyScatter_eq_rowProds (mul : α → β → γ) (add : γ → γ → γ)
    (Acols : List (SpVec α)) (bcol : SpVec β) (i : Nat)
    (hA : ∀ c ∈ Acols, svSorted c) :
    ∀ w : Nat → Option γ,
      (saxpyScatter mul add Acols bcol w) i
        = (rowProds mul Acols bcol i).foldl (accOpt add) (w i) := by
  induction bcol with
  | nil => intro w; rfl
  | cons kb bcol ih =>
    intro w
    unfold saxpyScatter rowProds
    rw [List.foldl_cons, List.filterMap_cons]
    have hstep := saxpy_inner_eq_lookup add mul kb.2 (Acols.getD kb.1 []) i
      (svSorted_getD Acols kb.1 hA) w
    cases hl : (Acols.getD kb.1 []).lookup i with
    | some a =>
      rw [hl] at hstep
      simp only [Option.map_some']
      rw [List.foldl_cons]
      have := ih ((Acols.getD kb.1 []).foldl (saxpyUpdate add mul kb.2) w)
      unfold saxpyScatter rowProds at this
      rw [this, hstep]
    | none =>
      rw [hl] at hstep
      simp only [Option.map_none']
      have := ih ((Acols.getD kb.1 []).foldl (saxpyUpdate add mul kb.2) w)
      unfold saxpyScatter rowProds at this
      rw [this, hstep]

/-- Modelled from the spec: one output column of the saxpy/hash strategy —
scatter-accumulate every column contribution into the workspace, then
compact the touched slots in ascending row order into the output. -/
def saxpyCol (mul : α → β → γ) (add : γ → γ → γ) (Acols : List (SpVec α))
    (bcol : SpVec β) (cvlen : Nat) : SpVec γ :=
  (List.range cvlen).filterMap
    (fun i => ((saxpyScatter mul add Acols bcol (fun _ => none)) i).map
      (fun c => (i, c)))

/-- Modelled from the spec: one output column of the (unmasked)
dot-product strategy — for each output row `i`, the dot product of row `i`
of `A` (vector `i` of the transposed operand, as `GB_AxB_dot2` receives
it) with the `B` column; rows with empty pattern intersection produce no
entry. -/
def dotColT (mul : α → β → γ) (add : γ → γ → γ) (Acols : List (SpVec α))
    (bcol : SpVec β) (cvlen : Nat) : SpVec γ :=
  (List.range cvlen).filterMap
    (fun i => (dotVal mul add (rowOf Acols i) bcol).map (fun c => (i, c)))

/-- C2: for all inputs with sorted sparse columns and any semiring
operators, the dot-product strategy and the saxpy/hash strategy computing
the same unmasked product produce identical `(row, value)` entry lists in
every output column. -/
theorem dot_saxpy_strategy_agree (mul : α → β → γ) (add : γ → γ → γ)
    (Acols : List (SpVec α)) (bcol : SpVec β) (cvlen : Nat)
    (hA : ∀ c ∈ Acols, svSorted c) (hb : svSorted bcol) :
    dotColT mul add Acols bcol cvlen = saxpyCol mul add Acols bcol cvlen := by
  unfold dotColT saxpyCol
  apply List.filterMap_congr
  intro i _
  rw [dotVal_row_eq_rowProds mul add Acols bcol i hb,
    saxpyScatter_eq_rowProds mul add Acols bcol i hA (fun _ => none)]

/-- C2 witness: the spec's concrete scenario — `A` the 3-by-3 identity,
`B = diag (2, 3, 4)`, plus-times semiring — where both strategies give
column 1 the single entry `(1, 3)`. -/
theorem dot_saxpy_strategy_agree_wit :
    dotColT (fun a b => a * b) (fun x y => x + y)
        [[(0, 1)], [(1, 1)], [(2, 1)]] [(1, (3 : Nat))] 3
      = saxpyCol (fun a b => a * b) (fun x y => x + y)
        [[(0, 1)], [(1, 1)], [(2, 1)]] [(1, 3)] 3
    ∧ dotColT (fun a b => a * b) (fun x y => x + y)
        [[(0, 1)], [(1, 1)], [(2, 1)]] [(1, (3 : Nat))] 3 = [(1, 3)] :=
  have h := dot_saxpy_strategy_agree (fun a b => a * b) (fun x y => x + y)
    [[(0, 1)], [(1, 1)], [(2, 1)]] [(1, 3)] 3 (by decide) (by decide)
  ⟨h, h.trans (by decide)⟩

/-! ## Masked dot products (dot3 and complemented-mask dot2) -/

/-- Value of the mask column at row `i`: true iff an entry is stored there
with a truthy value (the non-structural mask reading). -/
def maskLook (mcol : SpVec Bool) (i : Nat) : Bool := (mcol.lookup i).getD false

/-- The positions selected by the mask: those of `M` itself, or of its
complement when `complement` is set. -/
def maskSel (comp : Bool) (mcol : SpVec Bool) (i : Nat) : Bool :=
  if comp then !(maskLook mcol i) else maskLook mcol i

/-- Modelled from the spec: one output column of dot3, the masked
dot-product method (`GB_Adot3B__lor_first_bool` of `src/unnamed/part_001`;
its template `GB_AxB_dot3_template.c` is not in the snapshot) — the scan
is driven by the mask column's nonzero pattern, and each stored mask entry
with a true value selects one candidate whose dot product is computed. -/
def dot3Col (mul : α → β → γ) (add : γ → γ → γ) (Acols : List (SpVec α))
    (mcol : SpVec Bool) (bcol : SpVec β) : SpVec γ :=
  mcol.filterMap
    (fun im => if im.2 then
        (dotVal mul add (rowOf Acols im.1) bcol).map (fun c => (im.1, c))
      else none)

/-- Modelled from the spec: one output column of dot2 under a complemented
mask (`C<!M> = A'*B`, the case `GB_AxB_dot2` handles) — enumerate the
unmasked product and discard the masked-out candidates as they are
written. -/
def dot2CompCol (mul : α → β → γ) (add : γ → γ → γ) (Acols : List (SpVec α))
    (mcol : SpVec Bool) (bcol : SpVec β) (cvlen : Nat) : SpVec γ :=
  (List.range cvlen).filterMap
    (fun i => if !(maskLook mcol i) then
        (dotVal mul add (rowOf Acols i) bcol).map (fun c => (i, c))
      else none)

/-- Dispatch of one masked-product column per the source:
`C<M> = A'*B` uses dot3 (comment at `src/unnamed/part_001` line 197) and
`C<!M> = A'*B` uses dot2 (`Source/GB_AxB_dot2.c` line 17). -/
def maskedCol (mul : α → β → γ) (add : γ → γ → γ) (comp : Bool)
    (Acols : List (SpVec α)) (mcol : SpVec Bool) (bcol : SpVec β)
    (cvlen : Nat) : SpVec γ :=
  if comp then dot2CompCol mul add Acols mcol bcol cvlen
  else dot3Col mul add Acols mcol bcol

theorem filter_fst_filterMap (l : List Nat) (g : Nat → Option γ)
    (p : Nat → Bool) :
    (l.filterMap (fun i => (g i).map (fun c => (i, c)))).filter
        (fun ic => p ic.1)
      = l.filterMap
          (fun i => if p i then (g i).map (fun c => (i, c)) else none) := by
  induction l with
  | nil => rfl
  | cons i l ih =>
    rw [List.filterMap_cons, List.filterMap_cons]
    cases hg : g i with
    | none => simpa using ih
    | some c =>
      by_cases hp : p i
      · simp only [Option.map_some', List.filter_cons, hp, if_pos, if_true]
        rw [ih]
      · simp only [Option.map_some', List.filter_cons, hp, if_false,
          Bool.false_eq_true, reduceIte]
        rw [ih]

theorem maskIter_eq_rangeIter (h : Nat → Option (Nat × γ)) :
    ∀ (len a : Nat) (mcol : SpVec Bool), svSorted mcol →
      (∀ p ∈ mcol, a ≤ p.1 ∧ p.1 < a + len) →
      mcol.filterMap (fun im => if im.2 then h im.1 else none)
        = (List.range' a len).filterMap
            (fun i => if maskLook mcol i then h i else none) := by
  intro len
  induction len with
  | zero =>
    intro a mcol hs hb
    have : mcol = [] := by
      cases mcol with
      | nil => rfl
      | cons p rest =>
        have := hb p (by simp)
        omega
    rw [this]
    rfl
  | succ len ih =>
    intro a mcol hs hb
    rw [List.range'_succ, List.filterMap_cons]
    cases mcol with
    | nil =>
      have hnone : (if maskLook ([] : SpVec Bool) a then h a else none)
          = none := rfl
      rw [hnone]
      simp only [List.filterMap_nil]
      symm
      exact List.filterMap_eq_nil_iff.mpr (fun i _ => rfl)
    | cons p rest =>
      obtain ⟨k, mv⟩ := p
      have hka : a ≤ k := (hb (k, mv) (by simp)).1
      by_cases hk : k = a
      · have hmk : maskLook ((k, mv) :: rest) a = mv := by
          unfold maskLook
          rw [lookup_cons_nat, if_pos hk.symm]
          rfl
        rw [hmk, List.filterMap_cons]
        have htail : (List.range' (a + 1) len).filterMap
            (fun i => if maskLook ((k, mv) :: rest) i then h i else none)
            = (List.range' (a + 1) len).filterMap
                (fun i => if maskLook rest i then h i else none) := by
          apply List.filterMap_congr
          intro i hi
          have hia : a + 1 ≤ i := (List.mem_range'_1.mp hi).1
          have : maskLook ((k, mv) :: rest) i = maskLook rest i := by
            unfold maskLook
            rw [lookup_cons_nat, if_neg (by omega)]
          rw [this]
        rw [htail]
        have hrest := ih (a + 1) rest (List.Pairwise.of_cons hs)
          (fun q hq => by
            have h1 := (List.pairwise_cons.mp hs).1 q hq
            have h2 := (hb q (by simp [hq])).2
            omega)
        rw [← hrest]
        cases mv <;> simp [hk]
      · have hmk : maskLook ((k, mv) :: rest) a = false := by
          unfold maskLook
          have : (((k, mv) :: rest).lookup a) = none := by
            apply lookup_eq_none_of_forall_ne
            intro q hq
            rcases List.mem_cons.mp hq with hh | hh
            · rw [hh]; exact fun hc => hk (by omega)
            · have := (List.pairwise_cons.mp hs).1 q hh
              omega
          rw [this]
          rfl
        rw [hmk]
        have := ih (a + 1) ((k, mv) :: rest) hs
          (fun q hq => by
            rcases List.mem_cons.mp hq with hh | hh
            · constructor
              · rw [hh]; omega
              · have := (hb q hq).2; omega
            · have h1 := (List.pairwise_cons.mp hs).1 q hh
              have h2 := (hb q hq).2
              omega)
        rw [← this]
        simp

/-- C3: for every mask column, complement flag, and inputs, the entries of
the masked product column (dot3 for `C<M>`, dot2 for `C<!M>`) are exactly
the entries of the unmasked product column at the positions selected by
`M` (or by its complement when the flag is set). -/
theorem masked_eq_unmasked_inter_mask (mul : α → β → γ) (add : γ → γ → γ)
    (comp : Bool) (Acols : List (SpVec α)) (mcol : SpVec Bool)
    (bcol : SpVec β) (cvlen : Nat)
    (hm : svSorted mcol) (hbnd : ∀ p ∈ mcol, p.1 < cvlen) :
    maskedCol mul add comp Acols mcol bcol cvlen
      = (dotColT mul add Acols bcol cvlen).filter
          (fun ic => maskSel comp mcol ic.1) := by
  cases comp with
  | false =>
    have hsel : (fun ic : Nat × γ => maskSel false mcol ic.1)
        = (fun ic : Nat × γ => maskLook mcol ic.1) := rfl
    rw [hsel]
    show dot3Col mul add Acols mcol bcol = _
    unfold dotColT
    rw [filter_fst_filterMap, List.range_eq_range']
    exact maskIter_eq_rangeIter
      (fun i => (dotVal mul add (rowOf Acols i) bcol).map (fun c => (i, c)))
      cvlen 0 mcol hm
      (fun p hp => ⟨Nat.zero_le _, by simpa using hbnd p hp⟩)
  | true =>
    have hsel : (fun ic : Nat × γ => maskSel true mcol ic.1)
        = (fun ic : Nat × γ => !(maskLook mcol ic.1)) := rfl
    rw [hsel]
    show dot2CompCol mul add Acols mcol bcol cvlen = _
    unfold dotColT dot2CompCol
    rw [filter_fst_filterMap (List.range cvlen)
      (fun i => dotVal mul add (rowOf Acols i) bcol)
      (fun i => !(maskLook mcol i))]

/-- C3 witness: the spec's concrete scenario — a mask whose single true
entry is at `(1, 1)` with `complement = false`, on a product whose
unmasked result has entries at `(0, 0)` (column 0) and `(1, 1)` (column
1): column 1 keeps only `(1, 7)` and column 0 becomes empty. -/
theorem masked_eq_unmasked_inter_mask_wit :
    maskedCol (fun (a : Nat) (b : Nat) => a * b) (fun x y => x + y) false
        [[(0, 1)], [(1, 1)]] [(1, true)] [(1, 7)] 2
      = (dotColT (fun a b => a * b) (fun x y => x + y) [[(0, 1)], [(1, 1)]]
          [(1, 7)] 2).filter (fun ic => maskSel false [(1, true)] ic.1)
    ∧ maskedCol (fun (a : Nat) (b : Nat) => a * b) (fun x y => x + y) false
        [[(0, 1)], [(1, 1)]] [(1, true)] [(1, 7)] 2 = [(1, 7)]
    ∧ maskedCol (fun (a : Nat) (b : Nat) => a * b) (fun x y => x + y) false
        [[(0, 1)], [(1, 1)]] [] [(0, 5)] 2 = [] :=
  ⟨masked_eq_unmasked_inter_mask (fun a b => a * b) (fun x y => x + y) false
      [[(0, 1)], [(1, 1)]] [(1, true)] [(1, 7)] 2 (by decide) (by decide),
   by simp [maskedCol, dot3Col, dotVal, interPairs, rowOf, rowFrom,
     List.lookup, accOpt, List.filterMap_cons, -Prod.mk_one_one,
     -Prod.mk_zero_zero],
   rfl⟩

/-! ## GB_AxB_dot2.c : two-phase count-then-fill construction -/

/-- The in-place exclusive scan of the per-thread counts of one vector,
embedding the inner `for tid` loop of `Source/GB_AxB_dot2.c` lines
164-172: `s` starts at 0, each thread's count is read, its slot is
overwritten with the running prefix (`C_count [k] = s`), and the returned
second component is the final `s` stored into `Cp [k]`. -/
def exclScanAux (s : Nat) : List Nat → List Nat × Nat
  | [] => ([], s)
  | c :: cs =>
    let r := exclScanAux (s + c) cs
    (s :: r.1, r.2)

/-- Per-thread start offsets within one vector of `C` (the overwritten
`C_counts [tid][k]`, consumed in phase 2 as `C_count_start`). -/
def threadOffsets (cnts : List Nat) : List Nat := (exclScanAux 0 cnts).1

/-- Total entry count of one vector of `C` (`Cp [k]` before `GB_cumsum`). -/
def colTotal (cnts : List Nat) : Nat := (exclScanAux 0 cnts).2

/-- Modelled from the spec: `GB_cumsum (Cp, cnvec, ...)` (line 178; its
body is not in the snapshot) — replace the per-vector totals by their
exclusive prefix sum, the grand total landing in the final slot
`Cp [cnvec]`. -/
def GB_cumsum (l : List Nat) : List Nat :=
  (exclScanAux 0 l).1 ++ [(exclScanAux 0 l).2]

theorem exclScanAux_total (l : List Nat) : ∀ s, (exclScanAux s l).2 = s + l.sum := by
  induction l with
  | nil => intro s; simp [exclScanAux]
  | cons c cs ih =>
    intro s
    rw [exclScanAux]
    have := ih (s + c)
    simp only [List.sum_cons]
    omega

theorem exclScanAux_length (l : List Nat) : ∀ s, (exclScanAux s l).1.length = l.length := by
  induction l with
  | nil => intro s; rfl
  | cons c cs ih =>
    intro s
    rw [exclScanAux]
    simp [ih (s + c)]

theorem exclScanAux_getD (l : List Nat) :
    ∀ s t, t < l.length → (exclScanAux s l).1.getD t 0 = s + (l.take t).sum := by
  induction l with
  | nil => intro s t ht; cases ht
  | cons c cs ih =>
    intro s t ht
    rw [exclScanAux]
    cases t with
    | zero => simp
    | succ t =>
      have := ih (s + c) t (by simpa using ht)
      simp only [List.getD_cons_succ, List.take_succ_cons, List.sum_cons]
      omega

theorem cumAux_getD (l : List Nat) :
    ∀ s k, k ≤ l.length →
      ((exclScanAux s l).1 ++ [(exclScanAux s l).2]).getD k 0
        = s + (l.take k).sum := by
  induction l with
  | nil =>
    intro s k hk
    have hk0 : k = 0 := by simpa using hk
    subst hk0
    simp [exclScanAux]
  | cons c cs ih =>
    intro s k hk
    rw [exclScanAux]
    cases k with
    | zero => simp
    | succ k =>
      have := ih (s + c) k (by simpa using hk)
      simp only [List.cons_append, List.getD_cons_succ, List.take_succ_cons,
        List.sum_cons]
      omega

theorem GB_cumsum_getD (l : List Nat) (k : Nat) (hk : k ≤ l.length) :
    (GB_cumsum l).getD k 0 = (l.take k).sum := by
  unfold GB_cumsum
  have := cumAux_getD l 0 k hk
  omega

theorem cumAux_headD (l : List Nat) (s : Nat) :
    ((exclScanAux s l).1 ++ [(exclScanAux s l).2]).headD 0 = s := by
  cases l with
  | nil => rfl
  | cons c cs => rfl

theorem cumAux_chain (l : List Nat) :
    ∀ s, List.Chain' (fun a b => a ≤ b)
      ((exclScanAux s l).1 ++ [(exclScanAux s l).2]) := by
  induction l with
  | nil => intro s; simp [exclScanAux]
  | cons c cs ih =>
    intro s
    have hgoal : (exclScanAux s (c :: cs)).1 ++ [(exclScanAux s (c :: cs)).2]
        = s :: ((exclScanAux (s + c) cs).1 ++ [(exclScanAux (s + c) cs).2]) :=
      rfl
    rw [hgoal, List.chain'_cons']
    refine ⟨?_, ih (s + c)⟩
    intro b hb
    have hh := cumAux_headD cs (s + c)
    cases hcs : ((exclScanAux (s + c) cs).1 ++ [(exclScanAux (s + c) cs).2]) with
    | nil => rw [hcs] at hb; cases hb
    | cons x xs =>
      rw [hcs] at hb hh
      simp only [List.head?_cons, Option.mem_def, Option.some.injEq] at hb
      simp only [List.headD_cons] at hh
      omega

theorem GB_cumsum_length (l : List Nat) : (GB_cumsum l).length = l.length + 1 := by
  unfold GB_cumsum
  simp [exclScanAux_length]

/-- Modelled from the spec: the symbolic phase 1 (`GB_AxB_dot2_count`,
line 138; its body is not in the snapshot) for one slice of `A` and one
column of `B` — count, without computing any value, how many entries this
slice contributes to the output vector: one per slice vector whose
sparsity pattern intersects the `B` column's. -/
def dot2_count_slice (slice : List (Nat × SpVec α)) (bcol : SpVec β) : Nat :=
  slice.countP (fun ic => !(interPairs ic.2 bcol).isEmpty)

/-- Modelled from the spec: the numeric phase 2 for one slice and one
output column — recompute the same per-vector intersections, this time
evaluating the multiply/add, and write the `(row, value)` entries in
slice order into the thread's assigned range. -/
def dot2_slice_entries (mul : α → β → γ) (add : γ → γ → γ)
    (slice : List (Nat × SpVec α)) (bcol : SpVec β) : List (Nat × γ) :=
  slice.filterMap
    (fun ic => (dotVal mul add ic.2 bcol).map (fun c => (ic.1, c)))

/-- The per-thread phase-1 counts of one output vector
(`C_counts [tid][k]` for fixed `k`). -/
def dot2_col_counts (slices : List (List (Nat × SpVec α))) (bcol : SpVec β) :
    List Nat :=
  slices.map (fun sl => dot2_count_slice sl bcol)

/-- One output vector of `C` after phase 2: every thread writes its
slice's entries into its disjoint precomputed range, so the stored vector
is the in-order concatenation of the per-slice entry lists. -/
def dot2_col_entries (mul : α → β → γ) (add : γ → γ → γ)
    (slices : List (List (Nat × SpVec α))) (bcol : SpVec β) :
    List (Nat × γ) :=
  (slices.map (fun sl => dot2_slice_entries mul add sl bcol)).flatten

/-- The vector-offset array `Cp` built by `Source/GB_AxB_dot2.c` lines
159-179: per-vector totals of the per-thread counts, then the cumulative
sum, the final slot holding the total entry count `cnz` used for the
single allocation `GB_ix_alloc (C, cnz, ...)`. -/
def dot2_Cp (slices : List (List (Nat × SpVec α))) (Bcols : List (SpVec β)) :
    List Nat :=
  GB_cumsum (Bcols.map (fun bcol => colTotal (dot2_col_counts slices bcol)))

theorem dot2_slice_entries_length (mul : α → β → γ) (add : γ → γ → γ)
    (slice : List (Nat × SpVec α)) (bcol : SpVec β) :
    (dot2_slice_entries mul add slice bcol).length
      = dot2_count_slice slice bcol := by
  induction slice with
  | nil => rfl
  | cons ic slice ih =>
    unfold dot2_slice_entries dot2_count_slice
    rw [List.filterMap_cons, List.countP_cons]
    unfold dot2_slice_entries dot2_count_slice at ih
    cases h : interPairs ic.2 bcol with
    | nil =>
      have hval : dotVal mul add ic.2 bcol = none := by
        unfold dotVal
        rw [h]
        rfl
      rw [hval]
      simp [h, ih]
    | cons x xs =>
      have hval : dotVal mul add ic.2 bcol
          = some ((xs.map (fun p => mul p.1 p.2)).foldl add (mul x.1 x.2)) := by
        unfold dotVal
        rw [h, List.map_cons, foldl_accOpt_none]
      rw [hval]
      simp [h, ih]

theorem colTotal_eq_sum (cnts : List Nat) : colTotal cnts = cnts.sum := by
  unfold colTotal
  have := exclScanAux_total cnts 0
  omega

theorem threadOffsets_getD (cnts : List Nat) (tid : Nat)
    (h : tid < cnts.length) :
    (threadOffsets cnts).getD tid 0 = (cnts.take tid).sum := by
  unfold threadOffsets
  have := exclScanAux_getD cnts 0 tid h
  omega

theorem getD_map_of_lt (l : List A) (f : A → B) (dB : B) (dA : A) :
    ∀ k, k < l.length → (l.map f).getD k dB = f (l.getD k dA) := by
  induction l with
  | nil => intro k hk; cases hk
  | cons a l ih =>
    intro k hk
    cases k with
    | zero => rfl
    | succ k =>
      simp only [List.map_cons, List.getD_cons_succ]
      exact ih k (by simpa using hk)

theorem sum_take_succ_getD (l : List Nat) :
    ∀ k, k < l.length → (l.take (k + 1)).sum = (l.take k).sum + l.getD k 0 := by
  induction l with
  | nil => intro k hk; cases hk
  | cons c cs ih =>
    intro k hk
    cases k with
    | zero => simp
    | succ k =>
      simp only [List.take_succ_cons, List.sum_cons, List.getD_cons_succ]
      have := ih k (by simpa using hk)
      omega

theorem join_extract (ls : List (List A)) :
    ∀ tid, tid < ls.length →
      ((ls.flatten.drop (((ls.map List.length).take tid).sum)).take
          ((ls.getD tid []).length))
        = ls.getD tid [] := by
  induction ls with
  | nil => intro tid htid; cases htid
  | cons l ls ih =>
    intro tid htid
    cases tid with
    | zero =>
      simp only [List.take_zero, List.sum_nil, List.drop_zero, List.flatten_cons,
        List.getD_cons_zero]
      exact List.take_left l ls.flatten
    | succ tid =>
      simp only [List.map_cons, List.take_succ_cons, List.sum_cons,
        List.flatten_cons, List.getD_cons_succ]
      rw [List.drop_append]
      exact ih tid (by simpa using htid)

theorem dot2_col_entries_length (mul : α → β → γ) (add : γ → γ → γ)
    (slices : List (List (Nat × SpVec α))) (bcol : SpVec β) :
    (dot2_col_entries mul add slices bcol).length
      = (dot2_col_counts slices bcol).sum := by
  unfold dot2_col_entries dot2_col_counts
  rw [List.length_flatten, List.map_map]
  congr 1
  apply List.map_congr_left
  intro sl _
  exact dot2_slice_entries_length mul add sl bcol

theorem dot2_Cp_last (mul : α → β → γ) (add : γ → γ → γ)
    (slices : List (List (Nat × SpVec α))) (Bcols : List (SpVec β)) :
    (dot2_Cp slices Bcols).getD Bcols.length 0
      = (Bcols.map
          (fun b => (dot2_col_entries mul add slices b).length)).sum := by
  unfold dot2_Cp
  rw [GB_cumsum_getD _ _ (by rw [List.length_map])]
  rw [List.take_of_length_le (by rw [List.length_map])]
  congr 1
  apply List.map_congr_left
  intro b _
  rw [colTotal_eq_sum, dot2_col_entries_length mul add slices b]

/-- C1: in the two-phase dot2 construction, for every output vector `k`
the number of entries the numeric phase 2 stores in vector `k` equals the
sum over threads of the symbolic phase-1 counts for `k`; the single
allocation size `Cp [cnvec]` equals the total entry count of `C`; the
offsets `Cp` are sized from the counts (`Cp [k+1] = Cp [k] +` the vector's
total); and each thread's phase-2 writes land exactly in the disjoint
range the prefix sum over thread partial counts assigns to it. -/
theorem dot2_phase1_counts_match_phase2 (mul : α → β → γ) (add : γ → γ → γ)
    (slices : List (List (Nat × SpVec α))) (Bcols : List (SpVec β))
    (k : Nat) (hk : k < Bcols.length) :
    (dot2_col_entries mul add slices (Bcols.getD k [])).length
        = (dot2_col_counts slices (Bcols.getD k [])).sum
    ∧ (dot2_Cp slices Bcols).getD (k + 1) 0
        = (dot2_Cp slices Bcols).getD k 0
          + (dot2_col_counts slices (Bcols.getD k [])).sum
    ∧ (dot2_Cp slices Bcols).getD Bcols.length 0
        = (Bcols.map
            (fun b => (dot2_col_entries mul add slices b).length)).sum
    ∧ ∀ tid, tid < slices.length →
        ((dot2_col_entries mul add slices (Bcols.getD k [])).drop
              ((threadOffsets
                (dot2_col_counts slices (Bcols.getD k []))).getD tid 0)).take
            ((dot2_col_counts slices (Bcols.getD k [])).getD tid 0)
          = dot2_slice_entries mul add (slices.getD tid [])
              (Bcols.getD k []) := by
  refine ⟨dot2_col_entries_length mul add slices _, ?_, dot2_Cp_last mul add slices Bcols, ?_⟩
  · unfold dot2_Cp
    have hlen : (Bcols.map
        (fun bcol => colTotal (dot2_col_counts slices bcol))).length
        = Bcols.length := List.length_map _ _
    rw [GB_cumsum_getD _ _ (by omega), GB_cumsum_getD _ _ (by omega)]
    rw [sum_take_succ_getD _ k (by omega)]
    rw [getD_map_of_lt Bcols _ 0 [] k hk]
    rw [colTotal_eq_sum]
  · intro tid htid
    have hmap : dot2_col_counts slices (Bcols.getD k [])
        = (slices.map
            (fun sl => dot2_slice_entries mul add sl (Bcols.getD k []))).map
              List.length := by
      unfold dot2_col_counts
      rw [List.map_map]
      apply List.map_congr_left
      intro sl _
      exact (dot2_slice_entries_length mul add sl _).symm
    have hcnt_len : (dot2_col_counts slices (Bcols.getD k [])).length
        = slices.length := List.length_map _ _
    rw [threadOffsets_getD _ tid (by omega)]
    rw [hmap]
    rw [getD_map_of_lt _ List.length 0 [] tid (by rwa [List.length_map])]
    unfold dot2_col_entries
    rw [join_extract _ tid (by rwa [List.length_map])]
    exact getD_map_of_lt slices _ [] [] tid htid

/-- C1 witness: two slices (vector 0 in slice 0, vector 1 in slice 1) and
a concrete `B`; on output vector 0 the phase-2 entry count matches the
summed phase-1 counts, and thread 1's assigned range holds exactly its
slice's entries. -/
theorem dot2_phase1_counts_match_phase2_wit :
    (dot2_col_entries (fun (a : Nat) (b : Nat) => a * b) (fun x y => x + y)
        [[(0, [(0, 2)])], [(1, [(1, 3)])]] [(0, 5)]).length
      = (dot2_col_counts [[(0, [(0, 2)])], [(1, [(1, 3)])]] [(0, 5)]).sum
    ∧ ((dot2_col_entries (fun (a : Nat) (b : Nat) => a * b) (fun x y => x + y)
          [[(0, [(0, 2)])], [(1, [(1, 3)])]] [(0, 5)]).drop
          ((threadOffsets
            (dot2_col_counts [[(0, [(0, 2)])], [(1, [(1, 3)])]]
              [(0, 5)])).getD 1 0)).take
        ((dot2_col_counts [[(0, [(0, 2)])], [(1, [(1, 3)])]]
          [(0, 5)]).getD 1 0)
      = dot2_slice_entries (fun (a : Nat) (b : Nat) => a * b)
          (fun x y => x + y) [(1, [(1, 3)])] [(0, 5)] :=
  ⟨(dot2_phase1_counts_match_phase2 (fun a b => a * b) (fun x y => x + y)
      [[(0, [(0, 2)])], [(1, [(1, 3)])]] [[(0, 5)], [(1, 7)]] 0
      (by decide)).1,
   (dot2_phase1_counts_match_phase2 (fun a b => a * b) (fun x y => x + y)
      [[(0, [(0, 2)])], [(1, [(1, 3)])]] [[(0, 5)], [(1, 7)]] 0
      (by decide)).2.2.2 1 (by decide)⟩

/-- C7: the vector-offset array `Cp` built by `GB_AxB_dot2` satisfies the
sparse-representation invariant: length `cnvec + 1`, first element 0,
monotonically non-decreasing, and final element equal to the total number
of stored entries of `C`. -/
theorem dot2_Cp_sparse_invariant (mul : α → β → γ) (add : γ → γ → γ)
    (slices : List (List (Nat × SpVec α))) (Bcols : List (SpVec β)) :
    (dot2_Cp slices Bcols).length = Bcols.length + 1
    ∧ (dot2_Cp slices Bcols).getD 0 0 = 0
    ∧ List.Chain' (fun a b => a ≤ b) (dot2_Cp slices Bcols)
    ∧ (dot2_Cp slices Bcols).getD Bcols.length 0
        = (Bcols.map
            (fun b => (dot2_col_entries mul add slices b).length)).sum := by
  refine ⟨?_, ?_, ?_, dot2_Cp_last mul add slices Bcols⟩
  · unfold dot2_Cp
    rw [GB_cumsum_length, List.length_map]
  · unfold dot2_Cp
    rw [GB_cumsum_getD _ 0 (by omega)]
    rfl
  · unfold dot2_Cp GB_cumsum
    exact cumAux_chain _ 0
